import Mathlib

/-!
Verification development for the addkey program (src/addkey.go).

The program is shallowly embedded: byte streams are `List Char` (all data
handled by the program is ASCII apart from key material, which only occurs
base64-encoded in the textual format), raw binary key material is `List Nat`
(byte values), and the effectful pipeline `realmain` is a pure function of an
environment describing the outcomes of the external effects (local key file
read, temp file creation, `lxc file pull`, `lxc file push`).

The golang.org/x/crypto/ssh library is an external dependency of the
repository; the parts addkey uses (`MarshalAuthorizedKey`, `Marshal`,
`ParseAuthorizedKey`) are modelled here from that library, at the level of
detail the program exercises: the SSH wire blob is modelled as the
length-prefixed algorithm name followed by opaque key material (the library
additionally validates the per-algorithm material structure, which is elided),
and `ParseAuthorizedKey` is modelled on its main path (first field skipped,
base64 field decoded, remainder is the comment); the library's fallback that
retries after an options field, and non-ASCII Unicode white space, are elided
as the program never exercises them.
-/

/-- Go `unicode.IsSpace` restricted to the ASCII range, as used by
`bytes.TrimSpace`: space, tab, newline, vertical tab, form feed,
carriage return. -/
def isGoSpace (c : Char) : Bool :=
  c = ' ' || c = '\t' || c = '\n' || c = '\x0b' || c = '\x0c' || c = '\r'

/-- Model of Go `bytes.TrimSpace` on ASCII data: drop white space from both
ends. -/
def trimSpace (l : List Char) : List Char :=
  ((l.dropWhile isGoSpace).reverse.dropWhile isGoSpace).reverse

/-- Space or horizontal tab, the separators recognised by the authorized_keys
field splitting (`bytes.IndexAny(in, " \t")`). -/
def isSpaceTab (c : Char) : Bool :=
  c = ' ' || c = '\t'

/-- Big-endian 32-bit length, as written by the SSH wire encoding. -/
def be32 (n : Nat) : List Nat :=
  [n / 16777216 % 256, n / 65536 % 256, n / 256 % 256, n % 256]

/-- Read a big-endian 32-bit length from the head of a byte list. -/
def readBE32 : List Nat → Option (Nat × List Nat)
  | a :: b :: c :: d :: rest => some (((a * 256 + b) * 256 + c) * 256 + d, rest)
  | _ => none

/-- SSH wire encoding of a string: 32-bit big-endian length then the bytes. -/
def stringWireBytes (s : String) : List Nat :=
  be32 s.length ++ s.toList.map Char.toNat

/-- Character `n` of the standard base64 alphabet
(`A-Z`, `a-z`, `0-9`, `+`, `/`). -/
def b64Char (n : Nat) : Char :=
  if n < 26 then Char.ofNat (65 + n)
  else if n < 52 then Char.ofNat (97 + (n - 26))
  else if n < 62 then Char.ofNat (48 + (n - 52))
  else if n = 62 then '+'
  else '/'

/-- Index of a character in the standard base64 alphabet, `none` for
characters outside it (including the padding character). -/
def b64Inv (c : Char) : Option Nat :=
  if 'A' ≤ c ∧ c ≤ 'Z' then some (c.toNat - 65)
  else if 'a' ≤ c ∧ c ≤ 'z' then some (c.toNat - 97 + 26)
  else if '0' ≤ c ∧ c ≤ '9' then some (c.toNat - 48 + 52)
  else if c = '+' then some 62
  else if c = '/' then some 63
  else none

/-- Standard base64 encoding with padding (`base64.StdEncoding.EncodeToString`). -/
def b64encode : List Nat → List Char
  | [] => []
  | [a] => [b64Char (a / 4), b64Char (a % 4 * 16), '=', '=']
  | [a, b] => [b64Char (a / 4), b64Char (a % 4 * 16 + b / 16), b64Char (b % 16 * 4), '=']
  | a :: b :: c :: rest =>
      b64Char (a / 4) :: b64Char (a % 4 * 16 + b / 16) ::
      b64Char (b % 16 * 4 + c / 64) :: b64Char (c % 64) :: b64encode rest

/-- Standard base64 decoding with padding (`base64.StdEncoding.Decode`):
input must be a sequence of 4-character groups, padding admitted only in the
final group. -/
def b64decode : List Char → Option (List Nat)
  | [] => some []
  | c1 :: c2 :: c3 :: c4 :: rest =>
      match b64Inv c1, b64Inv c2 with
      | some v1, some v2 =>
          if c3 = '=' then
            if c4 = '=' ∧ rest = [] then some [v1 * 4 + v2 / 16] else none
          else
            match b64Inv c3 with
            | some v3 =>
                if c4 = '=' then
                  if rest = [] then some [v1 * 4 + v2 / 16, v2 % 16 * 16 + v3 / 4] else none
                else
                  match b64Inv c4 with
                  | some v4 =>
                      (b64decode rest).map
                        (fun t => (v1 * 4 + v2 / 16) :: (v2 % 16 * 16 + v3 / 4) ::
                                  (v3 % 4 * 64 + v4) :: t)
                  | none => none
            | none => none
      | _, _ => none
  | _ => none

/-- A public key as the program sees it: the algorithm name and the key
material that follows it inside the SSH wire blob
(model of `ssh.PublicKey`). -/
structure SSHPublicKey where
  alg : String
  material : List Nat
deriving DecidableEq, Repr

/-- Model of `ssh.PublicKey.Marshal`: the SSH wire blob, i.e. the
length-prefixed algorithm name followed by the key material. -/
def SSHPublicKey.Marshal (pk : SSHPublicKey) : List Nat :=
  stringWireBytes pk.alg ++ pk.material

/-- Algorithm names accepted by the ssh library blob parser
(model of the `parsePubKey` dispatch). -/
def knownAlgos : List String :=
  ["ssh-rsa", "ssh-dss", "ecdsa-sha2-nistp256", "ecdsa-sha2-nistp384",
   "ecdsa-sha2-nistp521", "ssh-ed25519"]

/-- Model of the ssh library `parsePubKey`: read the length-prefixed
algorithm name from the blob; the rest is the key material (per-algorithm
material validation elided). -/
def parsePubKey (blob : List Nat) : Option SSHPublicKey :=
  match readBE32 blob with
  | none => none
  | some (n, rest) =>
      if n ≤ rest.length then
        let a := String.mk ((rest.take n).map Char.ofNat)
        if a ∈ knownAlgos then some ⟨a, rest.drop n⟩ else none
      else none

/-- Model of `ssh.MarshalAuthorizedKey`: algorithm name, space, base64 of the
wire blob, newline. -/
def marshalAuthorizedKey (pk : SSHPublicKey) : List Char :=
  pk.alg.toList ++ ' ' :: b64encode pk.Marshal ++ ['\n']

/-- Model of the ssh library `parseAuthorizedKey` applied to everything after
the first field: trim, take the base64 field up to a space or tab, decode it,
parse the blob; the trimmed remainder is the comment. -/
def sshParseKeyAndComment (s : List Char) : Option (SSHPublicKey × String) :=
  let s1 := trimSpace s
  let b64p := s1.takeWhile (fun c => !isSpaceTab c)
  match b64decode b64p with
  | none => none
  | some blob =>
      match parsePubKey blob with
      | none => none
      | some pk => some (pk, String.mk (trimSpace (s1.drop b64p.length)))

/-- Model of `ssh.ParseAuthorizedKey` on one line: cut at the first newline,
cut at a carriage return, trim; reject empty lines and comment lines; skip
the first field and parse the remainder (the options-field fallback of the
library is elided, as is iteration over later lines). -/
def sshParseAuthorizedKey (input : List Char) : Option (SSHPublicKey × String) :=
  let ln := (input.takeWhile (fun c => c != '\n')).takeWhile (fun c => c != '\r')
  let ln3 := trimSpace ln
  match ln3 with
  | [] => none
  | c :: _ =>
      if c = '#' then none
      else
        let fld := ln3.takeWhile (fun c => !isSpaceTab c)
        if fld.length = ln3.length then none
        else sshParseKeyAndComment (ln3.drop fld.length)

/-- A parsed authorized_keys record (`authKey` in addkey.go). -/
structure AuthKey where
  Key : SSHPublicKey
  Comment : String
deriving DecidableEq, Repr

/-- `authKey.MarshalWithComment`: the trimmed `ssh.MarshalAuthorizedKey`
output, a space, the comment, and a newline. -/
def AuthKey.MarshalWithComment (k : AuthKey) : List Char :=
  trimSpace (marshalAuthorizedKey k.Key) ++ ' ' :: k.Comment.toList ++ ['\n']

/-- The five algorithm identifiers accepted by `parseAuthKey`, in the order
the source tests them. -/
def supportedAlgoStrings : List String :=
  ["ssh-rsa", "ssh-dss", "ecdsa-sha2-nistp256", "ecdsa-sha2-nistp384",
   "ecdsa-sha2-nistp521"]

/-- The `supported` test of `parseAuthKey`: `bytes.HasPrefix` of the line
against each supported identifier. -/
def algoSupported (line : List Char) : Bool :=
  supportedAlgoStrings.any (fun a => a.toList.isPrefixOf line)

/-- The error values the program can produce. Errors whose text is supplied
by the operating system or the lxc tool carry no payload here; their exact
message text is abstracted in `errMessage`. `wrapPush` models the
`fmt.Errorf` wrapping applied by `realmain` to any error coming out of
`writeAuthorizedKeys`. -/
inductive AKError where
  | unsupportedKeyAlgo
  | parseError
  | keyReadError
  | tmpFileError
  | pullError
  | duplicateKey
  | noKeysToWrite
  | pushError
  | wrapPush (inner : AKError)
deriving DecidableEq, Repr

/-- `parseAuthKey` from addkey.go: prefix-check the line against the five
supported algorithm identifiers, then hand the line to
`ssh.ParseAuthorizedKey`. -/
def parseAuthKey (line : List Char) : Except AKError AuthKey :=
  if algoSupported line then
    match sshParseAuthorizedKey line with
    | some (pk, comment) => .ok ⟨pk, comment⟩
    | none => .error .parseError
  else .error .unsupportedKeyAlgo

/-- Split a stream into its newline-terminated lines (each returned line
includes its final newline) and the trailing fragment with no newline.
This is the line structure produced by the `bufio.ReadBytes` loop of
`readAuthorizedKeys`: the loop sees exactly the complete lines, and the
trailing fragment is what `ReadBytes` returns together with `io.EOF`. -/
def splitNL : List Char → List (List Char) × List Char
  | [] => ([], [])
  | c :: rest =>
      let p := splitNL rest
      if c = '\n' then (['\n'] :: p.1, p.2)
      else
        match p.1 with
        | [] => ([], c :: p.2)
        | l :: ls => ((c :: l) :: ls, p.2)

/-- Parse a list of lines in order, stopping at the first failure, as the
loop body of `readAuthorizedKeys` does. -/
def parseLines : List (List Char) → Except AKError (List AuthKey)
  | [] => .ok []
  | l :: ls =>
      match parseAuthKey l with
      | .error e => .error e
      | .ok k =>
          match parseLines ls with
          | .error e => .error e
          | .ok ks => .ok (k :: ks)

/-- `readAuthorizedKeys` from addkey.go: parse each newline-terminated line;
the loop breaks on `io.EOF`, so the trailing fragment without a newline is
dropped without error. -/
def readAuthorizedKeys (s : List Char) : Except AKError (List AuthKey) :=
  parseLines (splitNL s).1

/-- `writeAuthorizedKeys` from addkey.go, with the file and the push
abstracted: reject an empty record list, otherwise the content written and
pushed is the concatenation of the marshalled records; the push outcome comes
from the environment. On success the result is the destination path and the
content pushed there. -/
def writeAuthorizedKeys (keys : List AuthKey) (dstPath : String) (pushOk : Bool) :
    Except AKError (String × List Char) :=
  if keys.length = 0 then .error .noKeysToWrite
  else
    let content := (keys.map AuthKey.MarshalWithComment).flatten
    if pushOk then .ok (dstPath, content) else .error .pushError

/-- Outcomes of the external effects `realmain` performs, fixed up front:
the contents of the local public key file (`none` = read failure), whether
the temp file could be created, the contents `lxc file pull` delivers
(`none` = pull failure), and whether `lxc file push` succeeds. -/
structure Env where
  keyFile : Option (List Char)
  tmpOk : Bool
  pull : Option (List Char)
  pushOk : Bool

/-- Observable outcome of one `realmain` run: the returned error if any, the
path and content pushed to the container if a push happened (the transport is
all-or-nothing, so a failed push leaves the remote file untouched and is
recorded as no push), and whether the temp file was created and removed. -/
structure RunResult where
  err : Option AKError
  pushed : Option (String × List Char)
  tmpCreated : Bool
  tmpRemoved : Bool
deriving DecidableEq, Repr

/-- The remote path `realmain` builds from the container name. -/
def authKeysPath (container : String) : String :=
  container ++ "/root/.ssh/authorized_keys"

/-- `realmain` from addkey.go: read and parse the local key, create the temp
file (removed again on every later return, modelling `defer rmFile(tmp)`),
pull the remote authorized_keys, decode it, check the new key is not already
present by comparing `Marshal` outputs, append the new key and write/push. -/
def realmain (container : String) (env : Env) : RunResult :=
  match env.keyFile with
  | none => ⟨some .keyReadError, none, false, false⟩
  | some keybuf =>
      match parseAuthKey keybuf with
      | .error e => ⟨some e, none, false, false⟩
      | .ok key =>
          if !env.tmpOk then ⟨some .tmpFileError, none, false, false⟩
          else
            match env.pull with
            | none => ⟨some .pullError, none, true, true⟩
            | some contents =>
                match readAuthorizedKeys contents with
                | .error e => ⟨some e, none, true, true⟩
                | .ok keys =>
                    if keys.any (fun k => k.Key.Marshal == key.Key.Marshal) then
                      ⟨some .duplicateKey, none, true, true⟩
                    else
                      match writeAuthorizedKeys (keys ++ [key])
                              (authKeysPath container) env.pushOk with
                      | .error e => ⟨some (.wrapPush e), none, true, true⟩
                      | .ok (dst, content) => ⟨none, some (dst, content), true, true⟩

/-- The message text of each error, as formatted by the Go code. Messages
whose text comes from the operating system or the lxc tool are abstracted as
placeholders; the messages produced by addkey.go itself are exact. -/
def errMessage : AKError → String
  | .unsupportedKeyAlgo =>
      "unsupported key algorithm. Supported algorithms: ssh-rsa, ssh-dss, ecdsa-sha2-nistp256, ecdsa-sha2-nistp384, ecdsa-sha2-nistp521."
  | .parseError => "error parsing key: ssh: no key found"
  | .keyReadError => "error reading key: <io error>"
  | .tmpFileError => "<temp file error>"
  | .pullError => "<lxc pull error>"
  | .duplicateKey => "key already in authorized_keys"
  | .noKeysToWrite => "no keys to write"
  | .pushError => "<lxc push error>"
  | .wrapPush e => "error pushing new authorized_keys: " ++ errMessage e

/-- The usage text `printUsage` writes to standard error: the usage line
followed by the flag defaults printed by `flag.PrintDefaults`. -/
def printUsage (prog : String) : String :=
  "usage: " ++ prog ++ " [OPTIONS] <container>\n  -i string\n    \tspecify public key file to use\n"

/-- `main` from addkey.go: with no container argument, print the usage text
to standard error and exit 1; otherwise run `realmain`; print
`Error: <message>` and exit 1 on failure, exit 0 silently on success.
The result is the exit code and the lines written to standard error. -/
def mainFn (prog container : String) (env : Env) : Nat × List String :=
  if container.length = 0 then (1, [printUsage prog])
  else
    match (realmain container env).err with
    | some e => (1, ["Error: " ++ errMessage e ++ "\n"])
    | none => (0, [])

/-- A small RSA key (exponent 3, modulus 5) used as concrete test data. -/
def rsaKeyA : SSHPublicKey := ⟨"ssh-rsa", [0, 0, 0, 1, 3, 0, 0, 0, 1, 5]⟩

/-- A second, distinct small RSA key (exponent 3, modulus 7). -/
def rsaKeyC : SSHPublicKey := ⟨"ssh-rsa", [0, 0, 0, 1, 3, 0, 0, 0, 1, 7]⟩

/-- A small DSA key used as concrete test data. -/
def dssKeyB : SSHPublicKey := ⟨"ssh-dss", [1, 2, 3]⟩

/-- Record: key `rsaKeyA` with comment alice. -/
def recA : AuthKey := ⟨rsaKeyA, "alice"⟩

/-- Record: the same key material as `recA` but a different comment. -/
def recAbob : AuthKey := ⟨rsaKeyA, "bob"⟩

/-- Record: key `dssKeyB` with comment bob. -/
def recB : AuthKey := ⟨dssKeyB, "bob"⟩

/-- Record: key `rsaKeyC` with comment carol. -/
def recC : AuthKey := ⟨rsaKeyC, "carol"⟩

/-- Environment where the remote file holds the same key as the local one but
under a different comment. -/
def envDup : Env :=
  ⟨some recA.MarshalWithComment, true, some recAbob.MarshalWithComment, true⟩

/-- Environment with two distinct remote records and a fresh local key. -/
def envOrder : Env :=
  ⟨some recC.MarshalWithComment, true,
   some (recA.MarshalWithComment ++ recB.MarshalWithComment), true⟩

/-- Environment with an empty remote authorized_keys file. -/
def envEmpty : Env := ⟨some recC.MarshalWithComment, true, some [], true⟩

/-- Environment where the transport pull fails. -/
def envPullFail : Env := ⟨some recC.MarshalWithComment, true, none, true⟩

instance {ε α : Type} [DecidableEq ε] [DecidableEq α] : DecidableEq (Except ε α) := fun x y =>
  match x, y with
  | .error e, .error f =>
      if h : e = f then isTrue (by rw [h]) else isFalse (fun hh => by cases hh; exact h rfl)
  | .error _, .ok _ => isFalse (fun hh => by cases hh)
  | .ok _, .error _ => isFalse (fun hh => by cases hh)
  | .ok a, .ok b =>
      if h : a = b then isTrue (by rw [h]) else isFalse (fun hh => by cases hh; exact h rfl)

theorem b64Char_facts : ∀ n, n < 64 →
    b64Inv (b64Char n) = some n ∧ isGoSpace (b64Char n) = false ∧
    isSpaceTab (b64Char n) = false ∧ b64Char n ≠ '=' ∧
    b64Char n ≠ '\n' ∧ b64Char n ≠ '\r' := by decide

theorem b64encode_mem_facts (l : List Nat) (hl : ∀ x ∈ l, x < 256) :
    ∀ c ∈ b64encode l, isGoSpace c = false ∧ isSpaceTab c = false ∧
      c ≠ '\n' ∧ c ≠ '\r' := by
  induction l using b64encode.induct with
  | case1 => intro c hc; cases hc
  | case2 a =>
      have ha : a < 256 := hl a (by simp)
      intro c hc
      simp only [b64encode, List.mem_cons, List.mem_singleton] at hc
      rcases hc with rfl | rfl | rfl | rfl | h
      · exact ⟨(b64Char_facts _ (by omega)).2.1, (b64Char_facts _ (by omega)).2.2.1,
          (b64Char_facts _ (by omega)).2.2.2.2.1, (b64Char_facts _ (by omega)).2.2.2.2.2⟩
      · exact ⟨(b64Char_facts _ (by omega)).2.1, (b64Char_facts _ (by omega)).2.2.1,
          (b64Char_facts _ (by omega)).2.2.2.2.1, (b64Char_facts _ (by omega)).2.2.2.2.2⟩
      · exact ⟨by decide, by decide, by decide, by decide⟩
      · exact ⟨by decide, by decide, by decide, by decide⟩
      · cases h
  | case3 a b =>
      have ha : a < 256 := hl a (by simp)
      have hb : b < 256 := hl b (by simp)
      intro c hc
      simp only [b64encode, List.mem_cons, List.mem_singleton] at hc
      rcases hc with rfl | rfl | rfl | rfl | h
      · exact ⟨(b64Char_facts _ (by omega)).2.1, (b64Char_facts _ (by omega)).2.2.1,
          (b64Char_facts _ (by omega)).2.2.2.2.1, (b64Char_facts _ (by omega)).2.2.2.2.2⟩
      · exact ⟨(b64Char_facts _ (by omega)).2.1, (b64Char_facts _ (by omega)).2.2.1,
          (b64Char_facts _ (by omega)).2.2.2.2.1, (b64Char_facts _ (by omega)).2.2.2.2.2⟩
      · exact ⟨(b64Char_facts _ (by omega)).2.1, (b64Char_facts _ (by omega)).2.2.1,
          (b64Char_facts _ (by omega)).2.2.2.2.1, (b64Char_facts _ (by omega)).2.2.2.2.2⟩
      · exact ⟨by decide, by decide, by decide, by decide⟩
      · cases h
  | case4 a b c rest ih =>
      have ha : a < 256 := hl a (by simp)
      have hb : b < 256 := hl b (by simp)
      have hc256 : c < 256 := hl c (by simp)
      intro d hd
      simp only [b64encode, List.mem_cons] at hd
      rcases hd with rfl | rfl | rfl | rfl | h
      · exact ⟨(b64Char_facts _ (by omega)).2.1, (b64Char_facts _ (by omega)).2.2.1,
          (b64Char_facts _ (by omega)).2.2.2.2.1, (b64Char_facts _ (by omega)).2.2.2.2.2⟩
      · exact ⟨(b64Char_facts _ (by omega)).2.1, (b64Char_facts _ (by omega)).2.2.1,
          (b64Char_facts _ (by omega)).2.2.2.2.1, (b64Char_facts _ (by omega)).2.2.2.2.2⟩
      · exact ⟨(b64Char_facts _ (by omega)).2.1, (b64Char_facts _ (by omega)).2.2.1,
          (b64Char_facts _ (by omega)).2.2.2.2.1, (b64Char_facts _ (by omega)).2.2.2.2.2⟩
      · exact ⟨(b64Char_facts _ (by omega)).2.1, (b64Char_facts _ (by omega)).2.2.1,
          (b64Char_facts _ (by omega)).2.2.2.2.1, (b64Char_facts _ (by omega)).2.2.2.2.2⟩
      · exact ih (fun x hx => hl x (by simp [hx])) d h

theorem b64decode_b64encode (l : List Nat) (hl : ∀ x ∈ l, x < 256) :
    b64decode (b64encode l) = some l := by
  induction l using b64encode.induct with
  | case1 => rfl
  | case2 a =>
      have ha : a < 256 := hl a (by simp)
      have h1 := b64Char_facts (a / 4) (by omega)
      have h2 := b64Char_facts (a % 4 * 16) (by omega)
      simp only [b64encode, b64decode, h1.1, h2.1]
      norm_num
      omega
  | case3 a b =>
      have ha : a < 256 := hl a (by simp)
      have hb : b < 256 := hl b (by simp)
      have h1 := b64Char_facts (a / 4) (by omega)
      have h2 := b64Char_facts (a % 4 * 16 + b / 16) (by omega)
      have h3 := b64Char_facts (b % 16 * 4) (by omega)
      simp only [b64encode, b64decode, h1.1, h2.1, h3.1, if_neg h3.2.2.2.1]
      norm_num
      constructor <;> omega
  | case4 a b c rest ih =>
      have ha : a < 256 := hl a (by simp)
      have hb : b < 256 := hl b (by simp)
      have hc : c < 256 := hl c (by simp)
      have h1 := b64Char_facts (a / 4) (by omega)
      have h2 := b64Char_facts (a % 4 * 16 + b / 16) (by omega)
      have h3 := b64Char_facts (b % 16 * 4 + c / 64) (by omega)
      have h4 := b64Char_facts (c % 64) (by omega)
      have ihr := ih (fun x hx => hl x (by simp [hx]))
      simp only [b64encode, b64decode, h1.1, h2.1, h3.1, h4.1, if_neg h3.2.2.2.1,
        if_neg h4.2.2.2.1, ihr, Option.map_some]
      norm_num
      refine ⟨by omega, by omega, by omega⟩

theorem takeWhile_all {p : Char → Bool} : ∀ {l : List Char},
    (∀ c ∈ l, p c = true) → l.takeWhile p = l := by
  intro l h
  induction l with
  | nil => rfl
  | cons c t ih =>
      rw [List.takeWhile_cons_of_pos (h c (by simp))]
      rw [ih (fun d hd => h d (by simp [hd]))]

theorem takeWhile_stop {p : Char → Bool} {xs ys : List Char} {y : Char}
    (hxs : ∀ c ∈ xs, p c = true) (hy : p y = false) :
    (xs ++ y :: ys).takeWhile p = xs := by
  rw [List.takeWhile_append, takeWhile_all hxs, if_pos rfl,
    List.takeWhile_cons_of_neg (by simp [hy]), List.append_nil]

theorem getLastD_mem : ∀ (l : List Char) (d : Char), l ≠ [] → l.getLastD d ∈ l := by
  intro l
  induction l with
  | nil => intro d h; exact absurd rfl h
  | cons c t ih =>
      intro d _
      rw [List.getLastD_cons]
      cases ht : t with
      | nil => rw [List.getLastD_nil]; exact List.mem_cons_self c []
      | cons e u =>
          have h2 := ih c (by simp [ht])
          rw [ht] at h2
          exact List.mem_cons_of_mem c h2

theorem headD_reverse (l : List Char) (d : Char) : l.reverse.headD d = l.getLastD d := by
  rw [List.headD_eq_head?, List.getLastD_eq_getLast?, List.head?_reverse]

theorem trimSpace_eq_self {l : List Char}
    (h1 : isGoSpace (l.headD 'x') = false)
    (h2 : isGoSpace (l.getLastD 'x') = false) :
    trimSpace l = l := by
  cases l with
  | nil => rfl
  | cons c t =>
      unfold trimSpace
      rw [List.headD_cons] at h1
      rw [List.dropWhile_cons_of_neg (by simp [h1])]
      cases hr : (c :: t).reverse with
      | nil => exact absurd hr (by simp)
      | cons d u =>
          have hd : d = (c :: t).getLastD 'x' := by
            have h3 : (c :: t).reverse.headD 'x' = d := by rw [hr]; exact List.headD_cons
            rw [← h3, headD_reverse]
          rw [List.dropWhile_cons_of_neg (by rw [hd]; simp only [h2]; simp)]
          rw [← hr, List.reverse_reverse]

theorem trimSpace_cons_of_space {c : Char} (l : List Char) (hc : isGoSpace c = true) :
    trimSpace (c :: l) = trimSpace l := by
  unfold trimSpace
  rw [List.dropWhile_cons_of_pos hc]

theorem headD_append_left {xs : List Char} (ys : List Char) (d : Char) (h : xs ≠ []) :
    (xs ++ ys).headD d = xs.headD d := by
  cases xs with
  | nil => exact absurd rfl h
  | cons a t => rw [List.cons_append, List.headD_cons, List.headD_cons]

theorem getLastD_append_right (xs : List Char) {ys : List Char} (d : Char) (h : ys ≠ []) :
    (xs ++ ys).getLastD d = ys.getLastD d := by
  rw [List.getLastD_eq_getLast?, List.getLastD_eq_getLast?,
    List.getLast?_append_of_ne_nil xs h]

theorem trimSpace_append_space (l : List Char) (c : Char) (h0 : l ≠ [])
    (h1 : isGoSpace (l.headD 'x') = false) (h2 : isGoSpace (l.getLastD 'x') = false)
    (hc : isGoSpace c = true) : trimSpace (l ++ [c]) = l := by
  unfold trimSpace
  obtain ⟨a, t, rfl⟩ : ∃ a t, l = a :: t := by
    cases l with
    | nil => exact absurd rfl h0
    | cons a t => exact ⟨a, t, rfl⟩
  rw [List.headD_cons] at h1
  rw [List.cons_append, List.dropWhile_cons_of_neg (by simp [h1]), ← List.cons_append]
  rw [List.reverse_append, List.reverse_singleton, List.singleton_append,
    List.dropWhile_cons_of_pos hc]
  cases hr : (a :: t).reverse with
  | nil => simp at hr
  | cons d u =>
      have hd : d = (a :: t).getLastD 'x' := by
        have h3 : (a :: t).reverse.headD 'x' = d := by rw [hr]; exact List.headD_cons
        rw [← h3, headD_reverse]
      rw [List.dropWhile_cons_of_neg (by rw [hd]; simp only [h2]; simp)]
      rw [← hr, List.reverse_reverse]

theorem b64encode_ne_nil : ∀ l : List Nat, l ≠ [] → b64encode l ≠ [] := by
  intro l h
  match l with
  | [] => exact absurd rfl h
  | [a] => simp [b64encode]
  | [a, b] => simp [b64encode]
  | a :: b :: c :: r => simp [b64encode]

theorem marshal_ne_nil (pk : SSHPublicKey) : pk.Marshal ≠ [] := by
  simp [SSHPublicKey.Marshal, stringWireBytes, be32]

theorem marshal_bytes_lt (pk : SSHPublicKey)
    (ha : ∀ c ∈ pk.alg.toList, c.toNat < 256) (hm : ∀ b ∈ pk.material, b < 256) :
    ∀ b ∈ pk.Marshal, b < 256 := by
  intro b hb
  unfold SSHPublicKey.Marshal stringWireBytes at hb
  rcases List.mem_append.mp hb with h | h
  · rcases List.mem_append.mp h with h2 | h2
    · unfold be32 at h2
      simp only [List.mem_cons, List.not_mem_nil, or_false] at h2
      rcases h2 with rfl | rfl | rfl | rfl <;> omega
    · rcases List.mem_map.mp h2 with ⟨c, hc, rfl⟩
      exact ha c hc
  · exact hm b h

/-- The per-algorithm facts about the five supported identifiers that the
round-trip argument uses: each is a nonempty string of non-space printable
ASCII characters, none starts with the comment marker, and each is known to
the blob parser. -/
theorem supported_facts : ∀ a ∈ supportedAlgoStrings,
    a.toList ≠ [] ∧ a.toList.headD 'x' ≠ '#' ∧ a ∈ knownAlgos ∧
    a.toList.length < 4294967296 ∧
    ∀ c ∈ a.toList, isGoSpace c = false ∧ isSpaceTab c = false ∧
      c.toNat < 256 ∧ c ≠ '\n' ∧ c ≠ '\r' := by decide

/-- Well-formedness of a record for the round-trip property: supported
algorithm, byte-valued key material, and a comment free of newlines and
carriage returns that carries no leading or trailing white space. -/
def WellFormedRecord (k : AuthKey) : Prop :=
  k.Key.alg ∈ supportedAlgoStrings ∧
  (∀ b ∈ k.Key.material, b < 256) ∧
  '\n' ∉ k.Comment.toList ∧ '\r' ∉ k.Comment.toList ∧
  isGoSpace (k.Comment.toList.headD 'x') = false ∧
  isGoSpace (k.Comment.toList.getLastD 'x') = false

instance (k : AuthKey) : Decidable (WellFormedRecord k) := by
  unfold WellFormedRecord; infer_instance

theorem headD_mem : ∀ (l : List Char) (d : Char), l ≠ [] → l.headD d ∈ l := by
  intro l d h
  cases l with
  | nil => exact absurd rfl h
  | cons c t => rw [List.headD_cons]; exact List.mem_cons_self c t

theorem getLastD_indep (c : Char) (t : List Char) (d e : Char) :
    (c :: t).getLastD d = (c :: t).getLastD e := by
  rw [List.getLastD_cons, List.getLastD_cons]

theorem string_mk_toList (s : String) : String.mk s.toList = s := rfl

theorem readBE32_be32 (n : Nat) (rest : List Nat) (h : n < 4294967296) :
    readBE32 (be32 n ++ rest) = some (n, rest) := by
  have e : be32 n ++ rest =
      n / 16777216 % 256 :: n / 65536 % 256 :: n / 256 % 256 :: n % 256 :: rest := rfl
  rw [e]
  show some (((n / 16777216 % 256 * 256 + n / 65536 % 256) * 256 + n / 256 % 256) * 256
      + n % 256, rest) = some (n, rest)
  have e2 : ((n / 16777216 % 256 * 256 + n / 65536 % 256) * 256 + n / 256 % 256) * 256
      + n % 256 = n := by omega
  rw [e2]

theorem parsePubKey_marshal (pk : SSHPublicKey)
    (h1 : pk.alg.toList.length < 4294967296) (h2 : pk.alg ∈ knownAlgos) :
    parsePubKey pk.Marshal = some pk := by
  have hlen : pk.alg.length = pk.alg.toList.length := rfl
  unfold parsePubKey SSHPublicKey.Marshal stringWireBytes
  rw [List.append_assoc, readBE32_be32 _ _ (by rw [hlen]; exact h1)]
  dsimp only
  have hle : pk.alg.length ≤ (pk.alg.toList.map Char.toNat ++ pk.material).length := by
    rw [List.length_append, List.length_map, ← hlen]
    omega
  rw [if_pos hle]
  have etake : (pk.alg.toList.map Char.toNat ++ pk.material).take pk.alg.length
      = pk.alg.toList.map Char.toNat := by
    have e3 : pk.alg.length = (pk.alg.toList.map Char.toNat).length := by
      rw [List.length_map, hlen]
    rw [e3, List.take_left]
  have edrop : (pk.alg.toList.map Char.toNat ++ pk.material).drop pk.alg.length
      = pk.material := by
    have e3 : pk.alg.length = (pk.alg.toList.map Char.toNat).length := by
      rw [List.length_map, hlen]
    rw [e3, List.drop_left]
  rw [etake, edrop]
  have emap : (pk.alg.toList.map Char.toNat).map Char.ofNat = pk.alg.toList := by
    rw [List.map_map]
    have : (Char.ofNat ∘ Char.toNat) = id := by
      funext c; exact Char.ofNat_toNat c
    rw [this, List.map_id]
  rw [emap, string_mk_toList]
  rw [if_pos h2]

theorem marshalWithComment_eq (k : AuthKey) (hw : WellFormedRecord k) :
    k.MarshalWithComment =
      k.Key.alg.toList ++ ' ' :: b64encode k.Key.Marshal ++ ' ' :: k.Comment.toList
        ++ ['\n'] := by
  obtain ⟨hsup, hmat, _, _, _, _⟩ := hw
  obtain ⟨hAne, _, _, _, hAchars⟩ := supported_facts k.Key.alg hsup
  have hB256 : ∀ b ∈ k.Key.Marshal, b < 256 :=
    marshal_bytes_lt k.Key (fun c hc => (hAchars c hc).2.2.1) hmat
  have hBfacts := b64encode_mem_facts k.Key.Marshal hB256
  have hBne := b64encode_ne_nil k.Key.Marshal (marshal_ne_nil k.Key)
  unfold AuthKey.MarshalWithComment marshalAuthorizedKey
  rw [trimSpace_append_space (k.Key.alg.toList ++ ' ' :: b64encode k.Key.Marshal) '\n'
    (by simp)
    (by rw [headD_append_left _ _ hAne]
        exact (hAchars _ (headD_mem _ 'x' hAne)).1)
    (by rw [getLastD_append_right _ 'x' (by simp), List.getLastD_cons]
        exact (hBfacts _ (getLastD_mem _ ' ' hBne)).1)
    (by decide)]

theorem sshParseKeyAndComment_marshal (k : AuthKey) (T : List Char)
    (hTtrim : trimSpace T = T)
    (hT1 : T.takeWhile (fun c => !isSpaceTab c) = b64encode k.Key.Marshal)
    (hT2 : trimSpace (T.drop (b64encode k.Key.Marshal).length) = k.Comment.toList)
    (hB : b64decode (b64encode k.Key.Marshal) = some k.Key.Marshal)
    (hP : parsePubKey k.Key.Marshal = some k.Key) :
    sshParseKeyAndComment (' ' :: T) = some (k.Key, k.Comment) := by
  unfold sshParseKeyAndComment
  dsimp only
  rw [trimSpace_cons_of_space T (by decide), hTtrim, hT1, hB]
  dsimp only
  rw [hP]
  dsimp only
  rw [hT2, string_mk_toList]

theorem sshParseAuthorizedKey_marshal (k : AuthKey) (hw : WellFormedRecord k) :
    sshParseAuthorizedKey
      (k.Key.alg.toList ++ ' ' :: b64encode k.Key.Marshal ++ ' ' :: k.Comment.toList
        ++ ['\n']) = some (k.Key, k.Comment) := by
  obtain ⟨hsup, hmat, hCn, hCr, hCh, hCl⟩ := hw
  obtain ⟨hAne, hAhash, hAknown, hAlen, hAchars⟩ := supported_facts k.Key.alg hsup
  have hB256 : ∀ b ∈ k.Key.Marshal, b < 256 :=
    marshal_bytes_lt k.Key (fun c hc => (hAchars c hc).2.2.1) hmat
  have hBfacts := b64encode_mem_facts k.Key.Marshal hB256
  have hBne := b64encode_ne_nil k.Key.Marshal (marshal_ne_nil k.Key)
  have hB := b64decode_b64encode k.Key.Marshal hB256
  have hP := parsePubKey_marshal k.Key hAlen hAknown
  have hBhead : isGoSpace ((b64encode k.Key.Marshal).headD 'x') = false :=
    (hBfacts _ (headD_mem _ 'x' hBne)).1
  have hBlast : isGoSpace ((b64encode k.Key.Marshal).getLastD 'x') = false :=
    (hBfacts _ (getLastD_mem _ 'x' hBne)).1
  have hAhead : isGoSpace (k.Key.alg.toList.headD 'x') = false :=
    (hAchars _ (headD_mem _ 'x' hAne)).1
  unfold sshParseAuthorizedKey
  dsimp only
  cases hC : k.Comment.toList with
  | nil =>
      have e2 : (((k.Key.alg.toList ++ ' ' :: b64encode k.Key.Marshal) ++ [' '])
          ++ '\n' :: []).takeWhile (fun c => c != '\n')
          = (k.Key.alg.toList ++ ' ' :: b64encode k.Key.Marshal) ++ [' '] := by
        apply takeWhile_stop _ (by decide)
        intro c hc
        apply bne_iff_ne.mpr
        rcases List.mem_append.mp hc with h | h
        · rcases List.mem_append.mp h with h2 | h2
          · exact (hAchars c h2).2.2.2.1
          · rcases List.mem_cons.mp h2 with rfl | h3
            · decide
            · exact (hBfacts c h3).2.2.1
        · rcases List.mem_singleton.mp h with rfl
          decide
      rw [e2]
      have e3 : ((k.Key.alg.toList ++ ' ' :: b64encode k.Key.Marshal) ++ [' ']).takeWhile
          (fun c => c != '\r') = (k.Key.alg.toList ++ ' ' :: b64encode k.Key.Marshal)
          ++ [' '] := by
        apply takeWhile_all
        intro c hc
        apply bne_iff_ne.mpr
        rcases List.mem_append.mp hc with h | h
        · rcases List.mem_append.mp h with h2 | h2
          · exact (hAchars c h2).2.2.2.2
          · rcases List.mem_cons.mp h2 with rfl | h3
            · decide
            · exact (hBfacts c h3).2.2.2
        · rcases List.mem_singleton.mp h with rfl
          decide
      rw [e3]
      have e4 : trimSpace ((k.Key.alg.toList ++ ' ' :: b64encode k.Key.Marshal) ++ [' '])
          = k.Key.alg.toList ++ ' ' :: b64encode k.Key.Marshal := by
        apply trimSpace_append_space _ _ (by simp) _ _ (by decide)
        · rw [headD_append_left _ _ hAne]; exact hAhead
        · rw [getLastD_append_right _ 'x' (by simp), List.getLastD_cons]
          exact (hBfacts _ (getLastD_mem _ ' ' hBne)).1
      rw [e4]
      rcases hAeq : k.Key.alg.toList with _ | ⟨a0, A2⟩
      · exact absurd hAeq hAne
      rw [hAeq] at hAhash hAchars
      rw [List.cons_append]
      dsimp only
      rw [if_neg (by rw [List.headD_cons] at hAhash; exact hAhash)]
      rw [← List.cons_append]
      have e5 : ((a0 :: A2) ++ ' ' :: b64encode k.Key.Marshal).takeWhile
          (fun c => !isSpaceTab c) = a0 :: A2 := by
        apply takeWhile_stop _ (by decide)
        intro c hc
        rw [(hAchars c hc).2.1]
        rfl
      rw [e5]
      rw [if_neg (by simp)]
      rw [List.drop_left]
      apply sshParseKeyAndComment_marshal
      · exact trimSpace_eq_self hBhead hBlast
      · apply takeWhile_all
        intro c hc
        rw [(hBfacts c hc).2.1]
        rfl
      · rw [List.drop_length, hC]
        rfl
      · exact hB
      · exact hP
  | cons c0 C2 =>
      rw [hC] at hCn hCr hCh hCl
      have hbody : ∀ c ∈ (k.Key.alg.toList ++ ' ' :: b64encode k.Key.Marshal)
          ++ ' ' :: (c0 :: C2), c ≠ '\n' ∧ c ≠ '\r' := by
        intro c hc
        rcases List.mem_append.mp hc with h | h
        · rcases List.mem_append.mp h with h2 | h2
          · exact ⟨(hAchars c h2).2.2.2.1, (hAchars c h2).2.2.2.2⟩
          · rcases List.mem_cons.mp h2 with rfl | h3
            · exact ⟨by decide, by decide⟩
            · exact ⟨(hBfacts c h3).2.2.1, (hBfacts c h3).2.2.2⟩
        · rcases List.mem_cons.mp h with rfl | h3
          · exact ⟨by decide, by decide⟩
          · constructor
            · intro he; exact hCn (he ▸ h3)
            · intro he; exact hCr (he ▸ h3)
      have e2 : (((k.Key.alg.toList ++ ' ' :: b64encode k.Key.Marshal)
          ++ ' ' :: (c0 :: C2)) ++ '\n' :: []).takeWhile (fun c => c != '\n')
          = (k.Key.alg.toList ++ ' ' :: b64encode k.Key.Marshal) ++ ' ' :: (c0 :: C2) := by
        apply takeWhile_stop _ (by decide)
        intro c hc
        exact bne_iff_ne.mpr (hbody c hc).1
      rw [e2]
      have e3 : ((k.Key.alg.toList ++ ' ' :: b64encode k.Key.Marshal)
          ++ ' ' :: (c0 :: C2)).takeWhile (fun c => c != '\r')
          = (k.Key.alg.toList ++ ' ' :: b64encode k.Key.Marshal) ++ ' ' :: (c0 :: C2) := by
        apply takeWhile_all
        intro c hc
        exact bne_iff_ne.mpr (hbody c hc).2
      rw [e3]
      have e4 : trimSpace ((k.Key.alg.toList ++ ' ' :: b64encode k.Key.Marshal)
          ++ ' ' :: (c0 :: C2))
          = (k.Key.alg.toList ++ ' ' :: b64encode k.Key.Marshal) ++ ' ' :: (c0 :: C2) := by
        apply trimSpace_eq_self
        · rw [headD_append_left _ _ (by simp), headD_append_left _ _ hAne]
          exact hAhead
        · rw [getLastD_append_right _ 'x' (by simp), List.getLastD_cons,
            getLastD_indep c0 C2 ' ' 'x']
          exact hCl
      rw [e4]
      have e4b : (k.Key.alg.toList ++ ' ' :: b64encode k.Key.Marshal) ++ ' ' :: (c0 :: C2)
          = k.Key.alg.toList ++ ' ' :: (b64encode k.Key.Marshal ++ ' ' :: (c0 :: C2)) := by
        simp
      rw [e4b]
      rcases hAeq : k.Key.alg.toList with _ | ⟨a0, A2⟩
      · exact absurd hAeq hAne
      rw [hAeq] at hAhash hAchars
      rw [List.cons_append]
      dsimp only
      rw [if_neg (by rw [List.headD_cons] at hAhash; exact hAhash)]
      rw [← List.cons_append]
      have e5 : ((a0 :: A2) ++ ' ' :: (b64encode k.Key.Marshal ++ ' ' :: (c0 :: C2))).takeWhile
          (fun c => !isSpaceTab c) = a0 :: A2 := by
        apply takeWhile_stop _ (by decide)
        intro c hc
        rw [(hAchars c hc).2.1]
        rfl
      rw [e5]
      rw [if_neg (by simp)]
      rw [List.drop_left]
      apply sshParseKeyAndComment_marshal
      · apply trimSpace_eq_self
        · rw [headD_append_left _ _ hBne]
          exact hBhead
        · rw [getLastD_append_right _ 'x' (by simp), List.getLastD_cons,
            getLastD_indep c0 C2 ' ' 'x']
          exact hCl
      · apply takeWhile_stop _ (by decide)
        intro c hc
        rw [(hBfacts c hc).2.1]
        rfl
      · rw [List.drop_left, hC]
        rw [trimSpace_cons_of_space _ (by decide)]
        exact trimSpace_eq_self hCh hCl
      · exact hB
      · exact hP

theorem parseAuthKey_marshal (k : AuthKey) (hw : WellFormedRecord k) :
    parseAuthKey k.MarshalWithComment = .ok k := by
  rw [marshalWithComment_eq k hw]
  unfold parseAuthKey
  have hsupB : algoSupported (k.Key.alg.toList ++ ' ' :: b64encode k.Key.Marshal
      ++ ' ' :: k.Comment.toList ++ ['\n']) = true := by
    unfold algoSupported
    apply List.any_eq_true.mpr
    refine ⟨k.Key.alg, hw.1, List.isPrefixOf_iff_prefix.mpr ?_⟩
    exact ((List.prefix_append _ _).trans (List.prefix_append _ _)).trans
      (List.prefix_append _ _)
  rw [if_pos hsupB, sshParseAuthorizedKey_marshal k hw]

theorem splitNL_no_newline : ∀ t : List Char, '\n' ∉ t → splitNL t = ([], t) := by
  intro t ht
  induction t with
  | nil => rfl
  | cons c r ih =>
      unfold splitNL
      have hc : c ≠ '\n' := fun he => ht (he ▸ List.mem_cons_self c r)
      rw [ih (fun hm => ht (List.mem_cons_of_mem c hm))]
      simp [hc]

theorem splitNL_line (body : List Char) (hb : '\n' ∉ body) : ∀ rest : List Char,
    splitNL (body ++ '\n' :: rest) = ((body ++ ['\n']) :: (splitNL rest).1, (splitNL rest).2) := by
  induction body with
  | nil => intro rest; simp [splitNL]
  | cons c t ih =>
      intro rest
      have hc : c ≠ '\n' := fun he => hb (he ▸ List.mem_cons_self c t)
      rw [List.cons_append, splitNL.eq_def]
      dsimp only
      rw [if_neg hc, ih (fun hm => hb (List.mem_cons_of_mem c hm)) rest]
      dsimp only
      rw [← List.cons_append]

theorem readAuthorizedKeys_roundtrip : ∀ ks : List AuthKey,
    (∀ k ∈ ks, WellFormedRecord k) →
    readAuthorizedKeys ((ks.map AuthKey.MarshalWithComment).flatten) = .ok ks := by
  intro ks
  induction ks with
  | nil => intro _; rfl
  | cons k t ih =>
      intro hall
      have hwk : WellFormedRecord k := hall k (List.mem_cons_self k t)
      have hbody : '\n' ∉ (k.Key.alg.toList ++ ' ' :: b64encode k.Key.Marshal
          ++ ' ' :: k.Comment.toList) := by
        intro hmem
        obtain ⟨hsup, hmat, hCn, _, _, _⟩ := hwk
        obtain ⟨_, _, _, _, hAchars⟩ := supported_facts k.Key.alg hsup
        have hB256 : ∀ b ∈ k.Key.Marshal, b < 256 :=
          marshal_bytes_lt k.Key (fun c hc => (hAchars c hc).2.2.1) hmat
        have hBfacts := b64encode_mem_facts k.Key.Marshal hB256
        rcases List.mem_append.mp hmem with h | h
        · rcases List.mem_append.mp h with h2 | h2
          · exact (hAchars _ h2).2.2.2.1 rfl
          · rcases List.mem_cons.mp h2 with he | h3
            · cases he
            · exact (hBfacts _ h3).2.2.1 rfl
        · rcases List.mem_cons.mp h with he | h3
          · cases he
          · exact hCn h3
      have hline : k.MarshalWithComment ++ (t.map AuthKey.MarshalWithComment).flatten
          = (k.Key.alg.toList ++ ' ' :: b64encode k.Key.Marshal ++ ' ' :: k.Comment.toList)
            ++ '\n' :: (t.map AuthKey.MarshalWithComment).flatten := by
        rw [marshalWithComment_eq k hwk]
        simp
      unfold readAuthorizedKeys
      rw [List.map_cons, List.flatten_cons, hline, splitNL_line _ hbody]
      have hlineback : (k.Key.alg.toList ++ ' ' :: b64encode k.Key.Marshal
          ++ ' ' :: k.Comment.toList) ++ ['\n'] = k.MarshalWithComment := by
        rw [marshalWithComment_eq k hwk]
      unfold parseLines
      rw [hlineback, parseAuthKey_marshal k hwk]
      have iht := ih (fun x hx => hall x (List.mem_cons_of_mem k hx))
      unfold readAuthorizedKeys at iht
      rw [iht]

theorem splitNL_fst_ne_nil : ∀ s : List Char,
    s.getLastD 'x' = '\n' → s ≠ [] → (splitNL s).1 ≠ [] := by
  intro s
  induction s with
  | nil => intro _ hne; exact absurd rfl hne
  | cons c t ih =>
      intro h _
      cases t with
      | nil =>
          have hc : c = '\n' := by
            rw [List.getLastD_cons, List.getLastD_nil] at h
            exact h
          rw [splitNL.eq_def]
          dsimp only
          rw [if_pos hc]
          simp
      | cons d u =>
          have h2 : (d :: u).getLastD 'x' = '\n' := by
            rw [getLastD_indep d u 'x' c]
            rw [List.getLastD_cons] at h
            exact h
          have hne2 := ih h2 (by simp)
          rw [splitNL.eq_def]
          dsimp only
          by_cases hc : c = '\n'
          · rw [if_pos hc]; simp
          · rw [if_neg hc]
            cases hsp : (splitNL (d :: u)).1 with
            | nil => exact absurd hsp hne2
            | cons l ls => simp

theorem splitNL_append_ends_nl : ∀ s t : List Char, (s = [] ∨ s.getLastD 'x' = '\n') →
    splitNL (s ++ t) = ((splitNL s).1 ++ (splitNL t).1, (splitNL t).2) := by
  intro s
  induction s with
  | nil => intro t _; simp [splitNL]
  | cons c s2 ih =>
      intro t h
      rcases h with h | h
      · cases h
      rw [List.getLastD_cons] at h
      cases s2 with
      | nil =>
          have hc : c = '\n' := by rw [List.getLastD_nil] at h; exact h
          subst hc
          rw [List.cons_append, splitNL.eq_def]
          dsimp only
          rw [if_pos rfl]
          have e1 : splitNL ('\n' :: ([] : List Char)) = (['\n'] :: [], []) := rfl
          rw [List.nil_append, e1]
          simp
      | cons d u =>
          have h2 : (d :: u).getLastD 'x' = '\n' := by
            rw [getLastD_indep d u 'x' c]
            exact h
          have ihs := ih t (Or.inr h2)
          have hne := splitNL_fst_ne_nil (d :: u) h2 (by simp)
          rw [List.cons_append, splitNL.eq_def]
          dsimp only
          rw [ihs]
          conv_rhs => rw [splitNL.eq_def]
          dsimp only
          by_cases hc : c = '\n'
          · rw [if_pos hc, if_pos hc]
            simp
          · rw [if_neg hc, if_neg hc]
            cases hsp : (splitNL (d :: u)).1 with
            | nil => exact absurd hsp hne
            | cons l ls =>
                rw [List.cons_append]
                simp

theorem parseLines_ok_mem : ∀ (ls : List (List Char)) (ks : List AuthKey),
    parseLines ls = .ok ks → ∀ l ∈ ls, ∃ k2, parseAuthKey l = .ok k2 := by
  intro ls
  induction ls with
  | nil => intro ks _ l hl; cases hl
  | cons a as ih =>
      intro ks h l hl
      cases hpa : parseAuthKey a with
      | error e =>
          unfold parseLines at h
          rw [hpa] at h
          cases h
      | ok k2 =>
          rcases List.mem_cons.mp hl with rfl | hl2
          · exact ⟨k2, hpa⟩
          · unfold parseLines at h
            rw [hpa] at h
            cases hrest : parseLines as with
            | error e => rw [hrest] at h; cases h
            | ok ks2 => exact ih ks2 hrest l hl2

theorem string_length_zero {s : String} (h : s.length = 0) : s = "" := by
  cases s with
  | mk d =>
      cases d with
      | nil => rfl
      | cons c t => exact absurd h (by simp [String.length])

theorem marshal_body_no_newline (k : AuthKey) (hw : WellFormedRecord k) :
    '\n' ∉ (k.Key.alg.toList ++ ' ' :: b64encode k.Key.Marshal
      ++ ' ' :: k.Comment.toList) := by
  intro hmem
  obtain ⟨hsup, hmat, hCn, _, _, _⟩ := hw
  obtain ⟨_, _, _, _, hAchars⟩ := supported_facts k.Key.alg hsup
  have hB256 : ∀ b ∈ k.Key.Marshal, b < 256 :=
    marshal_bytes_lt k.Key (fun c hc => (hAchars c hc).2.2.1) hmat
  have hBfacts := b64encode_mem_facts k.Key.Marshal hB256
  rcases List.mem_append.mp hmem with h | h
  · rcases List.mem_append.mp h with h2 | h2
    · exact (hAchars _ h2).2.2.2.1 rfl
    · rcases List.mem_cons.mp h2 with he | h3
      · cases he
      · exact (hBfacts _ h3).2.2.1 rfl
  · rcases List.mem_cons.mp h with he | h3
    · cases he
    · exact hCn h3

theorem writeAuthorizedKeys_nonempty_error (ks : List AuthKey) (dst : String) (p : Bool)
    (e : AKError) (hne : ks ≠ []) (h : writeAuthorizedKeys ks dst p = .error e) :
    e = .pushError := by
  unfold writeAuthorizedKeys at h
  rw [if_neg (fun hl => hne (List.length_eq_zero.mp hl))] at h
  cases p with
  | true => cases h
  | false =>
      injection h with h2
      exact h2.symm

theorem parseAuthKey_error_cases (l : List Char) (e : AKError)
    (h : parseAuthKey l = .error e) :
    e = .unsupportedKeyAlgo ∨ e = .parseError := by
  unfold parseAuthKey at h
  by_cases hs : algoSupported l = true
  · rw [if_pos hs] at h
    cases hp : sshParseAuthorizedKey l with
    | none => rw [hp] at h; injection h with h2; exact Or.inr h2.symm
    | some pr => rw [hp] at h; cases h
  · rw [if_neg hs] at h
    injection h with h2
    exact Or.inl h2.symm

theorem parseLines_error_cases : ∀ (ls : List (List Char)) (e : AKError),
    parseLines ls = .error e → e = .unsupportedKeyAlgo ∨ e = .parseError := by
  intro ls
  induction ls with
  | nil => intro e h; cases h
  | cons a as ih =>
      intro e h
      unfold parseLines at h
      cases hpa : parseAuthKey a with
      | error e2 =>
          rw [hpa] at h
          injection h with h2
          exact h2 ▸ parseAuthKey_error_cases a e2 hpa
      | ok k2 =>
          rw [hpa] at h
          cases hrest : parseLines as with
          | error e3 =>
              rw [hrest] at h
              injection h with h2
              exact h2 ▸ ih e3 hrest
          | ok ks2 => rw [hrest] at h; cases h

theorem readAuthorizedKeys_error_cases (s : List Char) (e : AKError)
    (h : readAuthorizedKeys s = .error e) :
    e = .unsupportedKeyAlgo ∨ e = .parseError :=
  parseLines_error_cases _ e h

theorem realmain_shape (container : String) (env : Env) :
    ((realmain container env).err = none ∨ (realmain container env).pushed = none) ∧
    (realmain container env).tmpCreated = (realmain container env).tmpRemoved ∧
    (realmain container env).err ≠ some (.wrapPush .noKeysToWrite) := by
  obtain ⟨kf, tm, pl, ps⟩ := env
  unfold realmain
  rcases kf with _ | kb
  · exact ⟨Or.inr rfl, rfl, by simp⟩
  · dsimp only
    rcases hpk : parseAuthKey kb with e2 | key
    · refine ⟨Or.inr rfl, rfl, ?_⟩
      rcases parseAuthKey_error_cases kb e2 hpk with rfl | rfl <;> simp
    · dsimp only
      rcases tm with _ | _
      · exact ⟨Or.inr rfl, rfl, by simp⟩
      · rw [if_neg (by decide)]
        rcases pl with _ | contents
        · exact ⟨Or.inr rfl, rfl, by simp⟩
        · dsimp only
          rcases hra : readAuthorizedKeys contents with e2 | keys
          · refine ⟨Or.inr rfl, rfl, ?_⟩
            rcases readAuthorizedKeys_error_cases contents e2 hra with rfl | rfl <;> simp
          · dsimp only
            by_cases hdup : (keys.any fun k => k.Key.Marshal == key.Key.Marshal) = true
            · rw [if_pos hdup]
              exact ⟨Or.inr rfl, rfl, by simp⟩
            · rw [if_neg hdup]
              rcases hwr : writeAuthorizedKeys (keys ++ [key]) (authKeysPath container) ps
                with e2 | pr
              · refine ⟨Or.inr rfl, rfl, ?_⟩
                have he2 : e2 = .pushError :=
                  writeAuthorizedKeys_nonempty_error _ _ _ _ (by simp) hwr
                subst he2
                simp
              · rcases pr with ⟨dst, content⟩
                exact ⟨Or.inl rfl, rfl, by simp⟩

theorem realmain_reaches (container : String) (env : Env) (kb contents : List Char)
    (key : AuthKey) (keys : List AuthKey)
    (h1 : env.keyFile = some kb) (h2 : parseAuthKey kb = .ok key)
    (h3 : env.tmpOk = true) (h4 : env.pull = some contents)
    (h5 : readAuthorizedKeys contents = .ok keys) :
    realmain container env =
      if (keys.any fun k => k.Key.Marshal == key.Key.Marshal) then
        ⟨some .duplicateKey, none, true, true⟩
      else
        match writeAuthorizedKeys (keys ++ [key]) (authKeysPath container) env.pushOk with
        | .error e => ⟨some (.wrapPush e), none, true, true⟩
        | .ok (dst, content) => ⟨none, some (dst, content), true, true⟩ := by
  obtain ⟨kf, tm, pl, ps⟩ := env
  dsimp only at h1 h3 h4 ⊢
  subst h1
  subst h3
  subst h4
  unfold realmain
  dsimp only
  rw [h2]
  dsimp only
  rw [if_neg (by decide), h5]

/-- C1: the duplicate check compares the candidate key's binary `Marshal`
encoding against every decoded remote record's `Marshal` encoding, ignoring
comments and textual form; when any record's key material matches, `realmain`
fails with the duplicate-key error and pushes nothing to the container. -/
theorem realmain_duplicate_no_write (container : String) (env : Env)
    (kb contents : List Char) (key : AuthKey) (keys : List AuthKey)
    (h1 : env.keyFile = some kb) (h2 : parseAuthKey kb = .ok key)
    (h3 : env.tmpOk = true) (h4 : env.pull = some contents)
    (h5 : readAuthorizedKeys contents = .ok keys)
    (h6 : ∃ k ∈ keys, k.Key.Marshal = key.Key.Marshal) :
    (realmain container env).err = some .duplicateKey ∧
    (realmain container env).pushed = none := by
  have hany : (keys.any fun k => k.Key.Marshal == key.Key.Marshal) = true := by
    rcases h6 with ⟨k, hk, he⟩
    exact List.any_eq_true.mpr ⟨k, hk, beq_iff_eq.mpr he⟩
  rw [realmain_reaches container env kb contents key keys h1 h2 h3 h4 h5,
    if_pos hany]
  exact ⟨rfl, rfl⟩

/-- Witness for C1: a remote file holding the same key as the local one but
with a different comment is rejected as a duplicate, and nothing is pushed. -/
theorem realmain_duplicate_no_write_witness :
    (realmain "c1" envDup).err = some .duplicateKey ∧
    (realmain "c1" envDup).pushed = none :=
  realmain_duplicate_no_write "c1" envDup recA.MarshalWithComment
    recAbob.MarshalWithComment recA [recAbob] rfl (by decide) rfl rfl (by decide)
    ⟨recAbob, List.mem_cons_self recAbob [], rfl⟩

/-- C4: on a successful run, the pushed content is the concatenation of the
marshalled remote records in their original order followed by the new key
last, at the remote authorized_keys path. -/
theorem realmain_success_push_order (container : String) (env : Env)
    (kb contents : List Char) (key : AuthKey) (keys : List AuthKey)
    (h1 : env.keyFile = some kb) (h2 : parseAuthKey kb = .ok key)
    (h3 : env.tmpOk = true) (h4 : env.pull = some contents)
    (h5 : readAuthorizedKeys contents = .ok keys)
    (h6 : ∀ k ∈ keys, k.Key.Marshal ≠ key.Key.Marshal)
    (h7 : env.pushOk = true) :
    (realmain container env).err = none ∧
    (realmain container env).pushed =
      some (authKeysPath container,
        ((keys ++ [key]).map AuthKey.MarshalWithComment).flatten) := by
  have hany : (keys.any fun k => k.Key.Marshal == key.Key.Marshal) = false := by
    cases hb : keys.any fun k => k.Key.Marshal == key.Key.Marshal with
    | false => rfl
    | true =>
        obtain ⟨k, hk, he⟩ := List.any_eq_true.mp hb
        exact absurd (beq_iff_eq.mp he) (h6 k hk)
  have hwrite : writeAuthorizedKeys (keys ++ [key]) (authKeysPath container) true
      = .ok (authKeysPath container,
          ((keys ++ [key]).map AuthKey.MarshalWithComment).flatten) := by
    unfold writeAuthorizedKeys
    rw [if_neg (by simp)]
    rfl
  rw [realmain_reaches container env kb contents key keys h1 h2 h3 h4 h5,
    if_neg (by simp [hany]), h7, hwrite]
  exact ⟨rfl, rfl⟩

/-- Witness for C4: with remote records `[recA, recB]` and new key `recC`,
the pushed content encodes `recA`, then `recB`, then `recC`, in that order. -/
theorem realmain_success_push_order_witness :
    (realmain "c1" envOrder).err = none ∧
    (realmain "c1" envOrder).pushed =
      some (authKeysPath "c1",
        (([recA, recB] ++ [recC]).map AuthKey.MarshalWithComment).flatten) :=
  realmain_success_push_order "c1" envOrder recC.MarshalWithComment
    (recA.MarshalWithComment ++ recB.MarshalWithComment) recC [recA, recB]
    rfl (by decide) rfl rfl (by decide) (by decide) rfl

/-- C10: with an empty remote file, decoding yields no records and no error,
and the run succeeds (absent transport failure), pushing exactly the single
line that encodes the new key. -/
theorem realmain_empty_remote (container : String) (env : Env)
    (kb : List Char) (key : AuthKey)
    (h1 : env.keyFile = some kb) (h2 : parseAuthKey kb = .ok key)
    (h3 : env.tmpOk = true) (h4 : env.pull = some [])
    (h7 : env.pushOk = true) (hw : WellFormedRecord key) :
    readAuthorizedKeys [] = .ok ([] : List AuthKey) ∧
    (realmain container env).err = none ∧
    (realmain container env).pushed =
      some (authKeysPath container, key.MarshalWithComment) ∧
    List.count '\n' key.MarshalWithComment = 1 := by
  have h5 : readAuthorizedKeys ([] : List Char) = .ok [] := rfl
  have hwrite : writeAuthorizedKeys ([] ++ [key]) (authKeysPath container) true
      = .ok (authKeysPath container, key.MarshalWithComment) := by
    unfold writeAuthorizedKeys
    rw [if_neg (by simp)]
    simp
  rw [realmain_reaches container env kb [] key [] h1 h2 h3 h4 h5,
    if_neg (by simp), h7, hwrite]
  refine ⟨rfl, rfl, rfl, ?_⟩
  rw [marshalWithComment_eq key hw]
  have hb := marshal_body_no_newline key hw
  rw [List.count_append, List.count_eq_zero.mpr hb]
  simp [List.count_singleton]

/-- Witness for C10: pushing `recC` into an empty remote file pushes exactly
its one-line encoding. -/
theorem realmain_empty_remote_witness :
    readAuthorizedKeys [] = .ok ([] : List AuthKey) ∧
    (realmain "c1" envEmpty).err = none ∧
    (realmain "c1" envEmpty).pushed =
      some (authKeysPath "c1", recC.MarshalWithComment) ∧
    List.count '\n' recC.MarshalWithComment = 1 :=
  realmain_empty_remote "c1" envEmpty recC.MarshalWithComment recC rfl (by decide)
    rfl rfl rfl (by decide)

/-- C2 counterexample: an input whose final line has no terminating newline
decodes without any error; the incomplete line is silently dropped (the
`bufio.ReadBytes` loop breaks on `io.EOF`), so decoding does not fail as the
claim states. -/
theorem readAuthorizedKeys_trailing_counterexample :
    '\n' ∉ ("ssh-rsa AAAAB3NzaC1yc2EAAAABAwAAAAEF x".toList) ∧
    readAuthorizedKeys ("ssh-rsa AAAAB3NzaC1yc2EAAAABAwAAAAEF x".toList)
      = .ok [] :=
  ⟨by decide, by decide⟩

/-- C2 (amended): a trailing incomplete line is silently dropped, not an
error: appending any newline-free fragment to a stream of newline-terminated
lines leaves the decode result unchanged. -/
theorem readAuthorizedKeys_drops_trailing (s t : List Char)
    (hs : s = [] ∨ s.getLastD 'x' = '\n') (ht : '\n' ∉ t) :
    readAuthorizedKeys (s ++ t) = readAuthorizedKeys s := by
  unfold readAuthorizedKeys
  rw [splitNL_append_ends_nl s t hs, splitNL_no_newline t ht]
  simp

/-- Witness for C2 (amended): a complete record line followed by an
unterminated fragment decodes exactly like the complete line alone. -/
theorem readAuthorizedKeys_drops_trailing_witness :
    readAuthorizedKeys (recA.MarshalWithComment ++ "ssh-rsa AAAA".toList)
      = readAuthorizedKeys recA.MarshalWithComment :=
  readAuthorizedKeys_drops_trailing recA.MarshalWithComment ("ssh-rsa AAAA".toList)
    (Or.inr (by decide)) (by decide)

/-- C3 counterexample: a record with supported algorithm and a comment with
no newline, but with leading white space in the comment, does not round-trip:
`ParseAuthorizedKey` trims the comment, so decode returns the record with the
trimmed comment instead. -/
theorem roundtrip_counterexample :
    (AuthKey.mk rsaKeyA " x").Key.alg ∈ supportedAlgoStrings ∧
    '\n' ∉ (AuthKey.mk rsaKeyA " x").Comment.toList ∧
    readAuthorizedKeys
      (([AuthKey.mk rsaKeyA " x"].map AuthKey.MarshalWithComment).flatten)
      ≠ .ok [AuthKey.mk rsaKeyA " x"] ∧
    readAuthorizedKeys
      (([AuthKey.mk rsaKeyA " x"].map AuthKey.MarshalWithComment).flatten)
      = .ok [AuthKey.mk rsaKeyA "x"] :=
  ⟨by decide, by decide, by decide, by decide⟩

/-- C3 (amended): encode-then-decode is the identity for sequences of
well-formed records, where well-formed additionally requires the comment to
contain no carriage return and to carry no leading or trailing white space
(both are destroyed by the trimming in `ParseAuthorizedKey`). -/
theorem encode_decode_roundtrip (ks : List AuthKey)
    (h : ∀ k ∈ ks, WellFormedRecord k) :
    readAuthorizedKeys ((ks.map AuthKey.MarshalWithComment).flatten) = .ok ks :=
  readAuthorizedKeys_roundtrip ks h

/-- Witness for C3 (amended): two concrete records of different algorithms
round-trip through encode and decode. -/
theorem encode_decode_roundtrip_witness :
    readAuthorizedKeys (([recA, recB].map AuthKey.MarshalWithComment).flatten)
      = .ok [recA, recB] :=
  encode_decode_roundtrip [recA, recB] (by decide)

/-- C5 counterexample: a line whose leading token is not one of the five
supported identifiers can still parse successfully, because the source only
checks a byte prefix of the line: a line starting with the token
`ssh-rsaX` passes the `ssh-rsa` prefix check and the ssh library ignores the
first field, so no `UnsupportedAlgorithm` error is raised. -/
theorem unsupported_token_counterexample :
    String.mk (("ssh-rsaX AAAAB3NzaC1yc2EAAAABAwAAAAEF c\n".toList).takeWhile
      (fun c => !isSpaceTab c)) ∉ supportedAlgoStrings ∧
    parseAuthKey ("ssh-rsaX AAAAB3NzaC1yc2EAAAABAwAAAAEF c\n".toList)
      = .ok ⟨rsaKeyA, "c"⟩ :=
  ⟨by decide, by decide⟩

/-- C5 (amended): the rejection is by byte prefix, not leading token: every
line that does not start with one of the five supported identifiers as a
byte prefix fails with the unsupported-algorithm error, and decoding any
stream one of whose newline-terminated lines fails to parse yields an error
carrying no records. -/
theorem unsupported_line_rejected (line : List Char)
    (h : algoSupported line = false) :
    parseAuthKey line = .error .unsupportedKeyAlgo ∧
    ∀ s : List Char, line ∈ (splitNL s).1 → ∃ e, readAuthorizedKeys s = .error e := by
  have hpe : parseAuthKey line = .error .unsupportedKeyAlgo := by
    unfold parseAuthKey
    rw [if_neg (by simp [h])]
  refine ⟨hpe, ?_⟩
  intro s hmem
  cases hra : readAuthorizedKeys s with
  | error e => exact ⟨e, rfl⟩
  | ok ks =>
      obtain ⟨k2, hk2⟩ := parseLines_ok_mem (splitNL s).1 ks hra line hmem
      rw [hpe] at hk2
      cases hk2

/-- Witness for C5 (amended): a line starting with an unknown token is
rejected with the unsupported-algorithm error, and a stream containing it
decodes to an error. -/
theorem unsupported_line_rejected_witness :
    parseAuthKey ("ssh-foo AAAA\n".toList) = .error .unsupportedKeyAlgo ∧
    (∃ e, readAuthorizedKeys ("ssh-foo AAAA\n".toList) = .error e) :=
  ⟨(unsupported_line_rejected ("ssh-foo AAAA\n".toList) (by decide)).1,
   (unsupported_line_rejected ("ssh-foo AAAA\n".toList) (by decide)).2
     ("ssh-foo AAAA\n".toList) (by decide)⟩

/-- C6: whenever `realmain` returns an error, no push of modified content to
the remote path has occurred; the remote file is left untouched (the
transport push being all-or-nothing). -/
theorem realmain_error_no_push (container : String) (env : Env) (e : AKError)
    (h : (realmain container env).err = some e) :
    (realmain container env).pushed = none := by
  rcases (realmain_shape container env).1 with h2 | h2
  · rw [h] at h2; cases h2
  · exact h2

/-- Witness for C6: a failing pull leaves the remote file untouched. -/
theorem realmain_error_no_push_witness :
    (realmain "c1" envPullFail).pushed = none :=
  realmain_error_no_push "c1" envPullFail .pullError (by decide)

/-- C7: on every exit path after the temporary file is created, the deferred
cleanup closes and removes it before `realmain` returns. -/
theorem realmain_tmp_cleanup (container : String) (env : Env)
    (h : (realmain container env).tmpCreated = true) :
    (realmain container env).tmpRemoved = true := by
  rw [← (realmain_shape container env).2.1]
  exact h

/-- Witness for C7: on a successful run the temporary file is removed. -/
theorem realmain_tmp_cleanup_witness :
    (realmain "c1" envOrder).tmpRemoved = true :=
  realmain_tmp_cleanup "c1" envOrder (by decide)

/-- C8: with no container argument `main` prints the usage text to standard
error and exits 1; on a pipeline error it prints one line of the form
`Error: <message>` to standard error and exits 1; on success it exits 0 and
prints nothing. -/
theorem main_exit_behavior (prog container : String) (env : Env) :
    (container = "" → mainFn prog container env = (1, [printUsage prog])) ∧
    (∀ e, container ≠ "" → (realmain container env).err = some e →
      mainFn prog container env = (1, ["Error: " ++ errMessage e ++ "\n"])) ∧
    (container ≠ "" → (realmain container env).err = none →
      mainFn prog container env = (0, [])) := by
  refine ⟨?_, ?_, ?_⟩
  · intro h
    subst h
    rfl
  · intro e hne he
    unfold mainFn
    rw [if_neg (fun hl => hne (string_length_zero hl)), he]
  · intro hne he
    unfold mainFn
    rw [if_neg (fun hl => hne (string_length_zero hl)), he]

/-- Witness for C8: the three exit behaviours at concrete inputs: missing
container argument, a failing pull, and a successful run. -/
theorem main_exit_behavior_witness :
    mainFn "addkey" "" envOrder = (1, [printUsage "addkey"]) ∧
    mainFn "addkey" "c1" envPullFail =
      (1, ["Error: " ++ errMessage .pullError ++ "\n"]) ∧
    mainFn "addkey" "c1" envOrder = (0, []) :=
  ⟨(main_exit_behavior "addkey" "" envOrder).1 rfl,
   (main_exit_behavior "addkey" "c1" envPullFail).2.1 .pullError (by decide) (by decide),
   (main_exit_behavior "addkey" "c1" envOrder).2.2 (by decide) (by decide)⟩

/-- C9: the encode-and-write step fails with the no-keys error exactly when
the record sequence is empty, and this branch is unreachable from the
pipeline: `realmain` always appends the new key before calling
`writeAuthorizedKeys`, so it never returns the wrapped no-keys error. -/
theorem noKeysError_exactly_empty_and_unreachable (ks : List AuthKey)
    (dst : String) (p : Bool) (container : String) (env : Env) :
    (writeAuthorizedKeys ks dst p = .error .noKeysToWrite ↔ ks = []) ∧
    (realmain container env).err ≠ some (.wrapPush .noKeysToWrite) := by
  refine ⟨⟨?_, ?_⟩, (realmain_shape container env).2.2⟩
  · intro h
    by_cases hl : ks.length = 0
    · exact List.length_eq_zero.mp hl
    · have h2 := writeAuthorizedKeys_nonempty_error ks dst p _
        (fun he => hl (by rw [he]; rfl)) h
      exact absurd h2 (by simp)
  · intro h
    subst h
    rfl

/-- Witness for C9: the empty sequence produces the no-keys error, and a
concrete pipeline run never returns it wrapped. -/
theorem noKeysError_exactly_empty_and_unreachable_witness :
    (writeAuthorizedKeys [] "p" true = .error .noKeysToWrite ↔
      ([] : List AuthKey) = []) ∧
    (realmain "c1" envOrder).err ≠ some (.wrapPush .noKeysToWrite) :=
  noKeysError_exactly_empty_and_unreachable [] "p" true "c1" envOrder
